import Mathlib

/-!
The qiniu object-storage adapter (`object/qiniu.go`).

A shallow embedding of the adapter in `object/qiniu.go` and the properties of
its read routing, signed-URL download request, delete ordering, listing cursor
and endpoint resolution.

Modelling conventions.

* Go `string` values are Lean `String`s.  The only separators the adapter
  searches for are the one-byte ASCII strings `"/"`, `"."` and `"-"`, for which
  searching by character and searching by byte select the same substrings.
* `int64` and `int` (64-bit) values are `Int`s; arithmetic that can overflow is
  wrapped explicitly by `wrap64`.
* A Go `error` is `Option GoError`, `none` being `nil`.
* The collaborators the adapter calls (the S3 baseline client, the kodo bucket
  client, the HTTP client, the process environment and the clock) are the
  fields of `Collab W`, state-passing functions over an arbitrary world `W`.
  Every adapter operation returns, besides its Go results, the world it leaves
  and the list of collaborator calls it issued, in program order.
-/

/-- A Go `error` value that is not `nil`: the sentinel `io.EOF`, or any other
error, identified by its message. -/
inductive GoError where
  | EOF : GoError
  | other (msg : String) : GoError
  deriving DecidableEq, Repr

/-- The range of `int64`. -/
def inInt64 (x : Int) : Prop := -(2:Int)^63 ≤ x ∧ x < (2:Int)^63

instance (x : Int) : Decidable (inInt64 x) := by
  unfold inInt64; infer_instance

/-- Two's-complement wrap-around of a mathematical integer into `int64`. -/
def wrap64 (x : Int) : Int := (x + (2:Int)^63) % (2:Int)^64 - (2:Int)^63

/-- The conversion `int(x)` of an `int64` on a platform whose `int` is 64 bits wide. -/
def toInt (x : Int) : Int := wrap64 x

/-- The verb `%d` of `fmt.Sprintf` applied to an integer. -/
def fmtD (x : Int) : String := toString x

/-- An `*http.Request` as far as the adapter builds it: method, URL and the
header lines in the order they were added. -/
structure Request where
  Method : String
  URL : String
  Header : List (String × String)
  deriving DecidableEq, Repr

/-- An `*http.Response`: the status code and the body stream. -/
structure Response where
  StatusCode : Int
  Body : String
  deriving DecidableEq, Repr

/-- A `kodo.ListItem`, one entry of a provider list response. -/
structure ListItem where
  Key : String
  Hash : String
  Fsize : Int
  PutTime : Int
  MimeType : String
  EndUser : String
  deriving DecidableEq, Repr

/-- The four results of `kodo.Bucket.List`. -/
structure ListRet where
  entries : List ListItem
  commonPrefixes : List String
  markerOut : String
  err : Option GoError
  deriving DecidableEq, Repr

/-- Modelled from the spec: the `Object` record of the storage interface, whose
declaration is outside `qiniu.go`; key, size in bytes, modify time and creation
time, in the order of the positional literal in `qiniu.List`. -/
structure Object where
  Key : String
  Size : Int
  Mtime : Int
  Ctime : Int
  deriving DecidableEq, Repr

/-- A call to a collaborator. -/
inductive Event where
  | s3Get (key : String) (off limit : Int) : Event
  | download (key : String) (off limit : Int) : Event
  | httpDo (req : Request) : Event
  | kodoStat (key : String) : Event
  | kodoDelete (key : String) : Event
  | kodoList (pfx delimiter marker : String) (limit : Int) : Event
  deriving DecidableEq, Repr

/-- The pair `(io.ReadCloser, error)` returned by a read. -/
abbrev GetRet := Option String × Option GoError

/-- The collaborators of the adapter, over a world `W`. -/
structure Collab (W : Type) where
  /-- `os.Getenv`. -/
  Getenv : String → W → String
  /-- `kodo.MakeBaseUrl(domain, key)`. -/
  MakeBaseUrl : String → String → String
  /-- `q.b.Conn.MakePrivateUrl(baseUrl, nil)`. -/
  MakePrivateUrl : String → W → String
  /-- The error of `http.NewRequest("GET", url, nil)`, `none` when the URL is accepted. -/
  NewRequestErr : String → Option GoError
  /-- `time.Now().UTC().Format(http.TimeFormat)`. -/
  Now : W → String
  /-- `httpClient.Do`, which returns a response or else an error. -/
  Do : Request → W → Except GoError Response × W
  /-- `s3client.Get`, the baseline read. -/
  s3Get : String → Int → Int → W → GetRet × W
  /-- `q.b.Stat`, of which only the error is used. -/
  Stat : String → W → Option GoError × W
  /-- `q.b.Delete`. -/
  Delete : String → W → Option GoError × W
  /-- `q.b.List(ctx, prefix, delimiter, marker, limit)`. -/
  bList : String → String → String → Int → W → ListRet × W

/-- What an adapter operation leaves behind: its Go results `ret`, the world
and the collaborator calls it made. -/
structure Out (W : Type) (α : Type) where
  ret : α
  world : W
  trace : List Event

/-- The `s3client` embedded in the adapter: the bucket name and the session
configuration built in `newQiniu`. -/
structure s3client where
  bucket : String
  Endpoint : String
  Region : String
  DisableSSL : Bool
  S3ForcePathStyle : Bool
  deriving DecidableEq, Repr

/-- The `kodo.Bucket` handle: the zone of its client and the bucket name. -/
structure Bucket where
  zone : Int
  Name : String
  deriving DecidableEq, Repr

/-- The adapter `type qiniu struct`. -/
structure qiniu where
  s3 : s3client
  b : Bucket
  marker : String
  deriving DecidableEq, Repr

/-- `strings.HasPrefix(s, p)`. -/
def HasPrefix (s p : String) : Bool := p.data.isPrefixOf s.data

/-- `qiniu.download`: the signed-URL read of `key`. -/
def qiniu.download {W : Type} (c : Collab W) (_q : qiniu) (key : String) (off limit : Int)
    (w : W) : Out W GetRet :=
  if c.Getenv "QINIU_DOMAIN" w = "" then
    ⟨(none, some (GoError.other "Please export QINIU_DOMAIN to download keys with prefix '/'")),
      w, []⟩
  else
    let baseUrl := c.MakeBaseUrl (c.Getenv "QINIU_DOMAIN" w) key
    let url := c.MakePrivateUrl baseUrl w
    match c.NewRequestErr url with
    | some err => ⟨(none, some err), w, []⟩
    | none =>
      let req : Request := ⟨"GET", url, []⟩
      let now := c.Now w
      let req := { req with Header := req.Header ++ [("Date", now)] }
      let req :=
        if off > 0 ∨ limit > 0 then
          if limit > 0 then
            { req with Header := req.Header ++
                [("Range", "bytes=" ++ fmtD off ++ "-" ++ fmtD (wrap64 (wrap64 (off + limit) - 1)))] }
          else
            { req with Header := req.Header ++ [("Range", "bytes=" ++ fmtD off ++ "-")] }
        else req
      match c.Do req w with
      | (Except.error err, w1) => ⟨(none, some err), w1, [Event.httpDo req]⟩
      | (Except.ok resp, w1) =>
        if resp.StatusCode ≠ 200 ∧ resp.StatusCode ≠ 206 then
          ⟨(none, some (GoError.other ("Status code: " ++ fmtD resp.StatusCode))), w1,
            [Event.httpDo req]⟩
        else
          ⟨(some resp.Body, none), w1, [Event.httpDo req]⟩

/-- `qiniu.Get`: keys that begin with `/` are read through `download`, the
others through the baseline client. -/
def qiniu.Get {W : Type} (c : Collab W) (q : qiniu) (key : String) (off limit : Int)
    (w : W) : Out W GetRet :=
  if HasPrefix key "/" then
    let r := q.download c key off limit w
    ⟨r.ret, r.world, Event.download key off limit :: r.trace⟩
  else
    let r := c.s3Get key off limit w
    ⟨r.1, r.2, [Event.s3Get key off limit]⟩

/-- `qiniu.Exists`: the error of the provider's stat. -/
def qiniu.Exists {W : Type} (c : Collab W) (_q : qiniu) (key : String) (w : W) :
    Out W (Option GoError) :=
  let r := c.Stat key w
  ⟨r.1, r.2, [Event.kodoStat key]⟩

/-- `qiniu.Delete`: the existence check, then the provider's delete. -/
def qiniu.Delete {W : Type} (c : Collab W) (q : qiniu) (key : String) (w : W) :
    Out W (Option GoError) :=
  let e := q.Exists c key w
  match e.ret with
  | some err => ⟨some err, e.world, e.trace⟩
  | none =>
    let r := c.Delete key e.world
    ⟨r.1, r.2, e.trace ++ [Event.kodoDelete key]⟩

/-- The body of the loop at the end of `qiniu.List`: `objs` is made with one
nil slot per entry and slot `i` is then set from `entries[i]`, for `i` from `0`
up to `len(entries)`. -/
def listObjs (entries : List ListItem) : List (Option Object) :=
  (List.finRange entries.length).foldl
    (fun objs i =>
      let entry := entries.get i
      let mtime := toInt (Int.tdiv entry.PutTime 10000000)
      objs.set i.val (some ⟨entry.Key, entry.Fsize, mtime, mtime⟩))
    (List.replicate entries.length none)

/-- The pair `([]*Object, error)` returned by `qiniu.List`; a nil slice is `[]`. -/
abbrev ListResult := List (Option Object) × Option GoError

/-- What `qiniu.List` leaves behind: its results, the adapter with its updated
cursor, the world and the collaborator calls. -/
structure ListOut (W : Type) where
  ret : ListResult
  q : qiniu
  world : W
  trace : List Event

/-- `qiniu.List`: one page of the listing, driven by the cursor `q.marker`. -/
def qiniu.List {W : Type} (c : Collab W) (q : qiniu) (pfx marker : String) (limit : Int)
    (w : W) : ListOut W :=
  let rest := fun (q : qiniu) =>
    let r := c.bList pfx "" q.marker (toInt limit) w
    let ev := Event.kodoList pfx "" q.marker (toInt limit)
    let q := { q with marker := r.1.markerOut }
    let err := if r.1.entries.length > 0 ∨ r.1.err = some GoError.EOF then none else r.1.err
    match err with
    | some e => ⟨([], some e), q, r.2, [ev]⟩
    | none => ⟨(listObjs r.1.entries, none), q, r.2, [ev]⟩
  if marker = "" then
    rest { q with marker := "" }
  else if q.marker = "" then
    -- last page
    ⟨([], none), q, w, []⟩
  else
    rest q

/-- `strings.Index(s, sep)` on character sequences: the first position at which
`sep` occurs in `s`, or `-1`. -/
def indexOfSub (s sep : List Char) : Int :=
  if sep.isPrefixOf s then 0
  else
    match s with
    | [] => -1
    | _ :: t =>
      let r := indexOfSub t sep
      if r < 0 then -1 else r + 1

/-- `strings.LastIndex(s, sep)` on character sequences: the last position at
which `sep` occurs in `s`, or `-1`. -/
def lastIndexOfSub (s sep : List Char) : Int :=
  match s with
  | [] => if sep.isEmpty then 0 else -1
  | c :: t =>
    let r := lastIndexOfSub t sep
    if r ≥ 0 then r + 1
    else if sep.isPrefixOf (c :: t) then 0 else -1

/-- `strings.LastIndex`. -/
def LastIndex (s sep : String) : Int := lastIndexOfSub s.data sep.data

/-- The loop of `strings.SplitN` for a separator that is not empty: at most
`k` more cuts, each at the first occurrence of `sep` in what is left. -/
def splitLoop (sep : List Char) : Nat → List Char → List String
  | 0, s => [String.mk s]
  | k + 1, s =>
    let m := indexOfSub s sep
    if m < 0 then [String.mk s]
    else String.mk (s.take m.toNat) :: splitLoop sep k (s.drop (m.toNat + sep.length))

/-- `strings.SplitN(s, sep, n)` for a separator that is not empty and `n ≥ 0`:
no piece for `n = 0`, else at most `n` pieces, the last one the unsplit rest. -/
def SplitN (s sep : String) (n : Nat) : List String :=
  if n = 0 then [] else splitLoop sep.data (n - 1) s.data

/-- The slice expression `s[:k]`, `none` when it panics (bounds out of range). -/
def sliceTo (s : String) (k : Int) : Option String :=
  if 0 ≤ k ∧ k ≤ s.data.length then some (String.mk (s.data.take k.toNat)) else none

/-- The static table `regions`. -/
def regions : List (String × Int) :=
  [("cn-east-1", 0), ("cn-north-1", 1), ("cn-south-1", 2), ("us-west-1", 3)]

/-- A lookup `m[k]` in a Go `map[string]int`: the zero value for a missing key. -/
def mapIndex (m : List (String × Int)) (k : String) : Int := (m.lookup k).getD 0

/-- A `*url.URL` as far as the adapter reads it. -/
structure URL where
  Scheme : String
  Host : String
  Path : String
  deriving DecidableEq, Repr

/-- How a call that may end the process ends: with a value, in `logger.Fatalf`,
or in a run-time panic. -/
inductive Outcome (α : Type) where
  | ok (a : α) : Outcome α
  | fatal (endpoint : String) (err : GoError) : Outcome α
  | panic (msg : String) : Outcome α
  deriving DecidableEq, Repr

/-- `newQiniu`: the adapter for an endpoint; `ParseRequestURI` is
`url.ParseRequestURI`. -/
def newQiniu (ParseRequestURI : String → Except GoError URL)
    (endpoint _accessKey _secretKey : String) : Outcome qiniu :=
  match ParseRequestURI endpoint with
  | Except.error err => Outcome.fatal endpoint err
  | Except.ok uri =>
    let hostParts := SplitN uri.Host "." 2
    match hostParts[0]? with
    | none => Outcome.panic "index out of range"
    | some bucket =>
      match hostParts[1]? with
      | none => Outcome.panic "index out of range"
      | some endpoint =>
        match sliceTo endpoint (LastIndex endpoint "-") with
        | none => Outcome.panic "slice bounds out of range"
        | some region =>
          let s3client : s3client := ⟨bucket, endpoint, region, false, true⟩
          let zone := mapIndex regions region
          let b : Bucket := ⟨zone, bucket⟩
          Outcome.ok ⟨s3client, b, ""⟩

/-- A stand-in for `url.ParseRequestURI` on endpoints `http://host/path` and
`https://host/path`: the host is what stands between `://` and the first `/`;
every other endpoint is refused. -/
def parseSimple (endpoint : String) : Except GoError URL :=
  let split := fun (scheme : String) (rest : List Char) =>
    (⟨scheme, String.mk (rest.takeWhile (fun ch => ch ≠ '/')),
      String.mk (rest.dropWhile (fun ch => ch ≠ '/'))⟩ : URL)
  if "https://".data.isPrefixOf endpoint.data then
    Except.ok (split "https" (endpoint.data.drop 8))
  else if "http://".data.isPrefixOf endpoint.data then
    Except.ok (split "http" (endpoint.data.drop 7))
  else Except.error (GoError.other "invalid URI for request")

/-- A sample collaborator set over a world that counts the network calls made:
the domain is configured, every request is accepted and answered with status
206, every key but `"missing"` exists, and every list call is answered with
`r`. -/
def sampleCollab (r : ListRet) : Collab Nat where
  Getenv := fun name _ => if name = "QINIU_DOMAIN" then "cdn.example.com" else ""
  MakeBaseUrl := fun domain key => "http://" ++ domain ++ "/" ++ key
  MakePrivateUrl := fun baseUrl _ => baseUrl ++ "?e=1&token=t"
  NewRequestErr := fun _ => none
  Now := fun _ => "Mon, 02 Jan 2006 15:04:05 GMT"
  Do := fun _ w => (Except.ok ⟨206, "payload"⟩, w + 1)
  s3Get := fun _ _ _ w => ((some "payload", none), w + 1)
  Stat := fun key w =>
    (if key = "missing" then some (GoError.other "no such file or directory") else none, w + 1)
  Delete := fun _ w => (none, w + 1)
  bList := fun _ _ _ _ w => (r, w + 1)

/-- A sample adapter with cursor `m`. -/
def sampleQ (m : String) : qiniu :=
  ⟨⟨"bkt", "cn-north-1-s3.qiniucs.com", "cn-north-1", false, true⟩, ⟨1, "bkt"⟩, m⟩

/-- A sample list entry with key `k` uploaded at `t` (in units of 100 ns). -/
def sampleItem (k : String) (t : Int) : ListItem := ⟨k, "h", 3, t, "text/plain", ""⟩

/-! ## The traversal of a caller and the provider it lists -/

/-- The hypothesis on the provider's list call under which the traversal is
bounded; it is an assumption, stronger than the spec's "one page at most
`limit` long".  The provider serves the entries `keys` under `pfx` in full
pages of `limit`: the continuation token `m` stands for the position `pos m`
in `keys`, the empty token for the start; a call with token `m` returns exactly
the next `limit` entries from that position on (all that are left when fewer
are left); and a token it returns that is not empty stands for the position
right behind the entries returned.  Nothing is asked of the error it
returns. -/
structure ServesBucket {W : Type} (c : Collab W) (pfx : String) (limit : Int)
    (keys : List ListItem) (pos : String → Nat) : Prop where
  start : pos "" = 0
  page : ∀ m w, (c.bList pfx "" m limit w).1.entries = (keys.drop (pos m)).take limit.toNat
  advance : ∀ m w, (c.bList pfx "" m limit w).1.markerOut ≠ "" →
    pos (c.bList pfx "" m limit w).1.markerOut =
      pos m + (c.bList pfx "" m limit w).1.entries.length

/-- Modelled from the spec: the traversal of a caller, which is outside
`qiniu.go`.  The first call is `List(prefix, "", limit)`; each later call
supplies the marker `next page` that the caller derives from the page the
previous call returned; the traversal ends with the first call that returns
zero entries.  The result is the list of the results of the calls made, `none`
when `fuel` calls did not reach the end. -/
def traversal {W : Type} (c : Collab W) (next : List (Option Object) → String) (pfx : String)
    (limit : Int) : Nat → String → qiniu → W → Option (List ListResult)
  | 0, _, _, _ => none
  | fuel + 1, marker, q, w =>
    let out := q.List c pfx marker limit w
    if out.ret.1.length = 0 then some [out.ret]
    else (traversal c next pfx limit fuel (next out.ret.1) out.q out.world).map
      (fun calls => out.ret :: calls)

/-- The marker a caller derives from a page: the key of its last object. -/
def lastKey (objs : List (Option Object)) : String :=
  match objs.getLast? with
  | some (some o) => o.Key
  | _ => ""

/-- A sample provider list call over a fixed list `keys` of entries: the
continuation token for position `p` is a string of length `p`; a call
returns the next `limit` entries and, when entries remain behind them, the
token of the position after the page; otherwise the empty token with `io.EOF`,
as `kodo.Bucket.List` does on the last page. -/
def pagedList (keys : List ListItem) (_pfx _delimiter marker : String) (limit : Int) (w : Nat) :
    ListRet × Nat :=
  let p := marker.data.length
  let page := (keys.drop p).take limit.toNat
  if p + limit.toNat < keys.length then
    (⟨page, [], String.mk (List.replicate (p + page.length) 'x'), none⟩, w + 1)
  else
    (⟨page, [], "", some GoError.EOF⟩, w + 1)

/-- The sample collaborators with `pagedList keys` as the provider's list call. -/
def pagedCollab (keys : List ListItem) : Collab Nat :=
  { sampleCollab ⟨[], [], "", none⟩ with bList := pagedList keys }

/-- A sample provider list call that serves one entry per call, whatever the
limit (a page at most `limit` long for every positive limit); tokens and the
last page are as in `pagedList`. -/
def thinList (keys : List ListItem) (_pfx _delimiter marker : String) (_limit : Int) (w : Nat) :
    ListRet × Nat :=
  let p := marker.data.length
  let page := (keys.drop p).take 1
  if p + 1 < keys.length then
    (⟨page, [], String.mk (List.replicate (p + page.length) 'x'), none⟩, w + 1)
  else
    (⟨page, [], "", some GoError.EOF⟩, w + 1)

/-- The sample collaborators with `thinList keys` as the provider's list call. -/
def thinCollab (keys : List ListItem) : Collab Nat :=
  { sampleCollab ⟨[], [], "", none⟩ with bList := thinList keys }

/-! ## Arithmetic and list lemmas -/

theorem wrap64_of_inInt64 (x : Int) (h : inInt64 x) : wrap64 x = x := by
  unfold inInt64 at h
  unfold wrap64
  norm_num at h ⊢
  omega

theorem wrap64_sub_one (x : Int) : wrap64 (wrap64 x - 1) = wrap64 (x - 1) := by
  unfold wrap64
  norm_num
  omega

theorem tdiv_inInt64 (x : Int) (h : inInt64 x) : inInt64 (x.tdiv 10000000) := by
  unfold inInt64 at h ⊢
  norm_num at h ⊢
  rcases le_total 0 x with hx | hx
  · rw [Int.tdiv_eq_ediv hx (by norm_num)]
    omega
  · have hn : x = -(-x) := by omega
    rw [hn, Int.neg_tdiv, Int.tdiv_eq_ediv (by omega) (by norm_num)]
    omega

theorem foldl_set_cons {α β : Type} (g : β → Nat) (f : β → α) (l : List β) (x : α)
    (objs : List α) :
    l.foldl (fun o i => o.set (g i + 1) (f i)) (x :: objs) =
      x :: l.foldl (fun o i => o.set (g i) (f i)) objs := by
  induction l generalizing objs with
  | nil => rfl
  | cons a t ih => simp only [List.foldl_cons, List.set_cons_succ]; exact ih _

theorem listObjs_cons (e : ListItem) (es : List ListItem) :
    listObjs (e :: es) =
      some ⟨e.Key, e.Fsize, toInt (e.PutTime.tdiv 10000000), toInt (e.PutTime.tdiv 10000000)⟩ ::
        listObjs es := by
  unfold listObjs
  simp only [List.length_cons, List.finRange_succ_eq_map, List.foldl_cons, List.foldl_map,
    List.replicate_succ]
  simp only [Fin.val_zero, List.set_cons_zero, Fin.val_succ]
  exact foldl_set_cons (fun i : Fin es.length => i.val) _ _ _ _

theorem listObjs_length (es : List ListItem) : (listObjs es).length = es.length := by
  induction es with
  | nil => rfl
  | cons e t ih => rw [listObjs_cons]; simp [ih]

theorem listObjs_eq_map (es : List ListItem) (h : ∀ e ∈ es, inInt64 e.PutTime) :
    listObjs es = es.map (fun e =>
      some ⟨e.Key, e.Fsize, e.PutTime.tdiv 10000000, e.PutTime.tdiv 10000000⟩) := by
  induction es with
  | nil => rfl
  | cons e t ih =>
    rw [listObjs_cons, ih (fun x hx => h x (List.mem_cons_of_mem _ hx))]
    have he := wrap64_of_inInt64 _ (tdiv_inInt64 _ (h e (List.mem_cons_self _ _)))
    simp [toInt, he]

/-! ## Read routing -/

/-- C1: `qiniu.Get` enters `download` exactly for the keys that begin with `/`,
and then returns what `download` returns; for every other key it returns what
the baseline `s3client.Get` returns for the same key, offset and limit, and its
only collaborator call is that baseline read. -/
theorem qiniu_Get_routing {W : Type} (c : Collab W) (q : qiniu) (key : String)
    (off limit : Int) (w : W) :
    ((∃ k o l, Event.download k o l ∈ (q.Get c key off limit w).trace) ↔
        HasPrefix key "/" = true) ∧
    (HasPrefix key "/" = true →
      (q.Get c key off limit w).ret = (q.download c key off limit w).ret ∧
      (q.Get c key off limit w).world = (q.download c key off limit w).world ∧
      (q.Get c key off limit w).trace =
        Event.download key off limit :: (q.download c key off limit w).trace ∧
      ∀ k o l, Event.s3Get k o l ∉ (q.Get c key off limit w).trace) ∧
    (HasPrefix key "/" = false →
      (q.Get c key off limit w).ret = (c.s3Get key off limit w).1 ∧
      (q.Get c key off limit w).world = (c.s3Get key off limit w).2 ∧
      (q.Get c key off limit w).trace = [Event.s3Get key off limit]) := by
  have hs : ∀ k o l, Event.s3Get k o l ∉ (q.download c key off limit w).trace := by
    intro k o l
    unfold qiniu.download
    dsimp only
    repeat' split
    all_goals simp
  by_cases h : HasPrefix key "/" = true
  · refine ⟨?_, ?_, ?_⟩
    · simp only [h, iff_true]
      exact ⟨key, off, limit, by simp [qiniu.Get, h]⟩
    · intro _
      refine ⟨by simp [qiniu.Get, h], by simp [qiniu.Get, h], by simp [qiniu.Get, h], ?_⟩
      intro k o l
      simp only [qiniu.Get, h, if_true, List.mem_cons, not_or]
      exact ⟨by simp, hs k o l⟩
    · intro h2; simp [h] at h2
  · have h2 : HasPrefix key "/" = false := by simpa using h
    refine ⟨?_, ?_, ?_⟩
    · simp [qiniu.Get, h2]
    · intro h3; simp [h2] at h3
    · intro _; simp [qiniu.Get, h2]

/-- The routing at the keys `/a` and `a/b` of the sample adapter. -/
theorem qiniu_Get_routing_witness :
    (sampleQ "").Get (sampleCollab ⟨[], [], "", none⟩) "/a" 0 0 5 =
      ⟨((sampleQ "").download (sampleCollab ⟨[], [], "", none⟩) "/a" 0 0 5).ret, 6,
        [Event.download "/a" 0 0,
          Event.httpDo ⟨"GET", "http://cdn.example.com//a?e=1&token=t",
            [("Date", "Mon, 02 Jan 2006 15:04:05 GMT")]⟩]⟩ ∧
    ((sampleQ "").Get (sampleCollab ⟨[], [], "", none⟩) "a/b" 0 0 5).trace =
      [Event.s3Get "a/b" 0 0] :=
  ⟨by rfl,
    ((qiniu_Get_routing (sampleCollab ⟨[], [], "", none⟩) (sampleQ "") "a/b" 0 0 5).2.2
      (by decide)).2.2⟩

/-! ## Delete -/

/-- C7: when `Exists` (the provider's stat) returns an error `e`, `qiniu.Delete`
returns `e` and its only collaborator call is the stat, so the provider's delete
is never issued; when `Exists` succeeds, `Delete` issues the provider's delete
after the stat and returns its result. -/
theorem qiniu_Delete_exists_first {W : Type} (c : Collab W) (q : qiniu) (key : String) (w : W) :
    (∀ e, (q.Exists c key w).ret = some e →
      (q.Delete c key w).ret = some e ∧
      (q.Delete c key w).trace = [Event.kodoStat key] ∧
      (∀ k, Event.kodoDelete k ∉ (q.Delete c key w).trace) ∧
      (q.Delete c key w).world = (q.Exists c key w).world) ∧
    ((q.Exists c key w).ret = none →
      (q.Delete c key w).ret = (c.Delete key (q.Exists c key w).world).1 ∧
      (q.Delete c key w).world = (c.Delete key (q.Exists c key w).world).2 ∧
      (q.Delete c key w).trace = [Event.kodoStat key, Event.kodoDelete key]) := by
  constructor
  · intro e he
    simp only [qiniu.Exists] at he
    simp [qiniu.Delete, qiniu.Exists, he]
  · intro he
    simp only [qiniu.Exists] at he
    simp [qiniu.Delete, qiniu.Exists, he]

/-- The delete of the key `missing`, which the stat refuses, and of the key
`k`, on the sample adapter. -/
theorem qiniu_Delete_exists_first_witness :
    ((sampleQ "").Delete (sampleCollab ⟨[], [], "", none⟩) "missing" 0).ret =
        some (GoError.other "no such file or directory") ∧
    ((sampleQ "").Delete (sampleCollab ⟨[], [], "", none⟩) "missing" 0).trace =
        [Event.kodoStat "missing"] ∧
    ((sampleQ "").Delete (sampleCollab ⟨[], [], "", none⟩) "k" 0).trace =
        [Event.kodoStat "k", Event.kodoDelete "k"] :=
  ⟨((qiniu_Delete_exists_first (sampleCollab ⟨[], [], "", none⟩) (sampleQ "") "missing" 0).1
      (GoError.other "no such file or directory") (by decide)).1,
    ((qiniu_Delete_exists_first (sampleCollab ⟨[], [], "", none⟩) (sampleQ "") "missing" 0).1
      (GoError.other "no such file or directory") (by decide)).2.1,
    ((qiniu_Delete_exists_first (sampleCollab ⟨[], [], "", none⟩) (sampleQ "") "k" 0).2
      (by decide)).2.2⟩

/-! ## Listing -/

/-- The call of `qiniu.List` when it reaches the provider: the cursor sent is
empty for an empty marker and the stored cursor otherwise. -/
theorem qiniu_List_reach {W : Type} (c : Collab W) (q : qiniu) (pfx marker : String)
    (limit : Int) (w : W) (hreach : marker = "" ∨ q.marker ≠ "") :
    q.List c pfx marker limit w =
      (let m := if marker = "" then "" else q.marker
       let r := c.bList pfx "" m (toInt limit) w
       if r.1.entries ≠ [] ∨ r.1.err = some GoError.EOF ∨ r.1.err = none then
         ⟨(listObjs r.1.entries, none), { q with marker := r.1.markerOut }, r.2,
           [Event.kodoList pfx "" m (toInt limit)]⟩
       else
         ⟨([], r.1.err), { q with marker := r.1.markerOut }, r.2,
           [Event.kodoList pfx "" m (toInt limit)]⟩) := by
  have key : ∀ (q1 : qiniu) (m : String), q1.marker = m → q1.s3 = q.s3 → q1.b = q.b →
      (let r := c.bList pfx "" q1.marker (toInt limit) w
       let ev := Event.kodoList pfx "" q1.marker (toInt limit)
       let q2 : qiniu := { q1 with marker := r.1.markerOut }
       let err := if r.1.entries.length > 0 ∨ r.1.err = some GoError.EOF then none else r.1.err
       (match err with
        | some e => (⟨([], some e), q2, r.2, [ev]⟩ : ListOut W)
        | none => ⟨(listObjs r.1.entries, none), q2, r.2, [ev]⟩)) =
      (let r := c.bList pfx "" m (toInt limit) w
       if r.1.entries ≠ [] ∨ r.1.err = some GoError.EOF ∨ r.1.err = none then
         ⟨(listObjs r.1.entries, none), { q with marker := r.1.markerOut }, r.2,
           [Event.kodoList pfx "" m (toInt limit)]⟩
       else
         ⟨([], r.1.err), { q with marker := r.1.markerOut }, r.2,
           [Event.kodoList pfx "" m (toInt limit)]⟩) := by
    intro q1 m hm hs hb
    subst hm
    dsimp only
    rcases hr : c.bList pfx "" q1.marker (toInt limit) w with ⟨⟨entries, cp, mo, err⟩, w1⟩
    dsimp only
    by_cases h1 : entries = []
    · subst h1
      by_cases h2 : err = some GoError.EOF
      · subst h2; simp [hs, hb]
      · cases err with
        | none => simp [hs, hb]
        | some e => simp [h2, hs, hb]
    · have hl : entries.length > 0 := List.length_pos.mpr h1
      simp [hl, h1, hs, hb]
  unfold qiniu.List
  by_cases hm : marker = ""
  · simp only [hm, if_true]
    exact key { q with marker := "" } "" rfl rfl rfl
  · rcases hreach with h | h
    · exact absurd h hm
    · simp only [hm, h, if_false]
      exact key q q.marker rfl rfl rfl

/-- C2, as the code has it: on a call that reaches the provider, `qiniu.List`
returns a nil error whenever the response has an entry or its error is
`io.EOF`, whatever the other of the two is; a provider error is swallowed
exactly in these cases, and in the remaining case (no entry and an error other
than `io.EOF`) `List` returns no object and that error. -/
theorem qiniu_List_error_policy {W : Type} (c : Collab W) (q : qiniu) (pfx marker : String)
    (limit : Int) (w : W) (hreach : marker = "" ∨ q.marker ≠ "") :
    (((c.bList pfx "" (if marker = "" then "" else q.marker) (toInt limit) w).1.entries ≠ [] ∨
        (c.bList pfx "" (if marker = "" then "" else q.marker) (toInt limit) w).1.err =
          some GoError.EOF) →
      (q.List c pfx marker limit w).ret.2 = none) ∧
    ((c.bList pfx "" (if marker = "" then "" else q.marker) (toInt limit) w).1.entries = [] →
      (c.bList pfx "" (if marker = "" then "" else q.marker) (toInt limit) w).1.err ≠
          some GoError.EOF →
      (q.List c pfx marker limit w).ret =
        ([], (c.bList pfx "" (if marker = "" then "" else q.marker) (toInt limit) w).1.err)) ∧
    (((c.bList pfx "" (if marker = "" then "" else q.marker) (toInt limit) w).1.err ≠ none ∧
        (q.List c pfx marker limit w).ret.2 = none) ↔
      ((c.bList pfx "" (if marker = "" then "" else q.marker) (toInt limit) w).1.err ≠ none ∧
        ((c.bList pfx "" (if marker = "" then "" else q.marker) (toInt limit) w).1.entries ≠ [] ∨
          (c.bList pfx "" (if marker = "" then "" else q.marker) (toInt limit) w).1.err =
            some GoError.EOF))) := by
  rw [qiniu_List_reach c q pfx marker limit w hreach]
  dsimp only
  rcases c.bList pfx "" (if marker = "" then "" else q.marker) (toInt limit) w with
    ⟨⟨entries, cp, mo, err⟩, w1⟩
  dsimp only
  refine ⟨?_, ?_, ?_⟩
  · rintro (h | h)
    · simp [h]
    · simp [h]
  · intro h1 h2
    subst h1
    cases err with
    | none => simp [listObjs]
    | some e => simp [h2]
  · by_cases h1 : entries = []
    · by_cases h2 : err = some GoError.EOF
      · simp [h1, h2]
      · cases err with
        | none => simp
        | some e => simp [h1, h2]
    · simp [h1]

/-- A timeout that comes with no entry is returned by the sample adapter. -/
theorem qiniu_List_error_policy_witness :
    ((sampleQ "tok").List
        (sampleCollab ⟨[], [], "", some (GoError.other "timeout")⟩) "p" "k" 10 0).ret =
      ([], some (GoError.other "timeout")) :=
  (qiniu_List_error_policy (sampleCollab ⟨[], [], "", some (GoError.other "timeout")⟩)
    (sampleQ "tok") "p" "k" 10 0 (Or.inr (by decide))).2.1 (by decide) (by decide)

/-- C2 fails as stated: a provider error other than `io.EOF` that comes with an
entry is swallowed, and so is `io.EOF` that comes with no entry; both calls
reach the provider. -/
theorem qiniu_List_error_policy_counterexample :
    (((sampleQ "").List
          (sampleCollab ⟨[sampleItem "a" 0], [], "", some (GoError.other "timeout")⟩)
          "" "" 10 0).trace = [Event.kodoList "" "" "" 10] ∧
      ((sampleQ "").List
          (sampleCollab ⟨[sampleItem "a" 0], [], "", some (GoError.other "timeout")⟩)
          "" "" 10 0).ret.2 = none) ∧
    (((sampleQ "").List (sampleCollab ⟨[], [], "", some GoError.EOF⟩) "" "" 10 0).trace =
        [Event.kodoList "" "" "" 10] ∧
      ((sampleQ "").List (sampleCollab ⟨[], [], "", some GoError.EOF⟩) "" "" 10 0).ret =
        ([], none)) := by
  decide

/-- C3: with a marker that is not empty and a stored cursor that is empty,
`qiniu.List` returns no object and no error, calls no collaborator, and leaves
the adapter (its cursor included) and the world as they were. -/
theorem qiniu_List_exhausted {W : Type} (c : Collab W) (q : qiniu) (pfx marker : String)
    (limit : Int) (w : W) (hm : marker ≠ "") (hq : q.marker = "") :
    (q.List c pfx marker limit w).ret = ([], none) ∧
    (q.List c pfx marker limit w).trace = [] ∧
    (q.List c pfx marker limit w).q = q ∧
    (q.List c pfx marker limit w).world = w := by
  simp [qiniu.List, hm, hq]

/-- The replay of the marker `a` on the sample adapter with an empty cursor. -/
theorem qiniu_List_exhausted_witness :
    ((sampleQ "").List (sampleCollab ⟨[sampleItem "a" 0], [], "t", none⟩) "p" "a" 10 0).ret =
      ([], none) ∧
    ((sampleQ "").List (sampleCollab ⟨[sampleItem "a" 0], [], "t", none⟩) "p" "a" 10 0).trace =
      [] ∧
    ((sampleQ "").List (sampleCollab ⟨[sampleItem "a" 0], [], "t", none⟩) "p" "a" 10 0).q =
      sampleQ "" ∧
    ((sampleQ "").List (sampleCollab ⟨[sampleItem "a" 0], [], "t", none⟩) "p" "a" 10 0).world =
      0 :=
  qiniu_List_exhausted (sampleCollab ⟨[sampleItem "a" 0], [], "t", none⟩) (sampleQ "") "p" "a"
    10 0 (by decide) (by decide)

theorem newQiniu_marker (P : String → Except GoError URL) (endpoint ak sk : String)
    (q : qiniu) (h : newQiniu P endpoint ak sk = Outcome.ok q) : q.marker = "" := by
  unfold newQiniu at h
  cases hp : P endpoint with
  | error err => simp [hp] at h
  | ok uri =>
    simp only [hp] at h
    cases h0 : (SplitN uri.Host "." 2)[0]? with
    | none => simp [h0] at h
    | some bucket =>
      cases h1 : (SplitN uri.Host "." 2)[1]? with
      | none => simp [h0, h1] at h
      | some ep =>
        cases h2 : sliceTo ep (LastIndex ep "-") with
        | none => simp [h0, h1, h2] at h
        | some region =>
          simp only [h0, h1, h2, Outcome.ok.injEq] at h
          rw [← h]

/-- C4: whatever the cursors of two adapters `q` and `q0` (so also for `q0`
fresh from `newQiniu`, whose cursor is empty), `qiniu.List` with marker `""`
makes one provider call, with the empty continuation token, and the results,
resulting cursor, world and calls are the same for both. -/
theorem qiniu_List_reset {W : Type} (c : Collab W) (q q0 : qiniu) (pfx : String) (limit : Int)
    (w : W) :
    (q.List c pfx "" limit w).trace = [Event.kodoList pfx "" "" (toInt limit)] ∧
    (q.List c pfx "" limit w).ret = (q0.List c pfx "" limit w).ret ∧
    (q.List c pfx "" limit w).q.marker = (q0.List c pfx "" limit w).q.marker ∧
    (q.List c pfx "" limit w).world = (q0.List c pfx "" limit w).world ∧
    (q.List c pfx "" limit w).trace = (q0.List c pfx "" limit w).trace ∧
    (q.List c pfx "" limit w).q.marker = (c.bList pfx "" "" (toInt limit) w).1.markerOut := by
  rw [qiniu_List_reach c q pfx "" limit w (Or.inl rfl),
    qiniu_List_reach c q0 pfx "" limit w (Or.inl rfl)]
  simp only [if_true]
  split <;> simp

/-- C8: when a call of `qiniu.List` reaches the provider and the response is
one `List` takes for a success (it has an entry, or its error is `io.EOF`, or
it has no error), with entries whose `PutTime` is an `int64`, `List` returns
no error and one object per entry, in the order of the entries, with the
entry's key and size and with both time fields equal to `PutTime / 10000000`
(Go's integer division, which truncates). -/
theorem qiniu_List_objects {W : Type} (c : Collab W) (q : qiniu) (pfx marker : String)
    (limit : Int) (w : W) (hreach : marker = "" ∨ q.marker ≠ "")
    (hsucc :
      (c.bList pfx "" (if marker = "" then "" else q.marker) (toInt limit) w).1.entries ≠ [] ∨
      (c.bList pfx "" (if marker = "" then "" else q.marker) (toInt limit) w).1.err =
        some GoError.EOF ∨
      (c.bList pfx "" (if marker = "" then "" else q.marker) (toInt limit) w).1.err = none)
    (hrange : ∀ e ∈ (c.bList pfx "" (if marker = "" then "" else q.marker)
      (toInt limit) w).1.entries, inInt64 e.PutTime) :
    (q.List c pfx marker limit w).ret =
      ((c.bList pfx "" (if marker = "" then "" else q.marker) (toInt limit) w).1.entries.map
        (fun e => some ⟨e.Key, e.Fsize, e.PutTime.tdiv 10000000, e.PutTime.tdiv 10000000⟩),
        none) := by
  rw [qiniu_List_reach c q pfx marker limit w hreach]
  dsimp only
  rw [if_pos hsucc, listObjs_eq_map _ hrange]

/-- A last page that arrives with `io.EOF`: two entries, one uploaded at
`15300000000000000` and one at `-15`. -/
theorem qiniu_List_objects_witness :
    ((sampleQ "tok").List
        (sampleCollab ⟨[sampleItem "a" 15300000000000000, sampleItem "b" (-15)], [], "",
          some GoError.EOF⟩)
        "" "k" 10 0).ret =
      ([some ⟨"a", 3, 1530000000, 1530000000⟩, some ⟨"b", 3, 0, 0⟩], none) :=
  qiniu_List_objects
    (sampleCollab ⟨[sampleItem "a" 15300000000000000, sampleItem "b" (-15)], [], "",
      some GoError.EOF⟩)
    (sampleQ "tok") "" "k" 10 0 (Or.inr (by decide)) (Or.inr (Or.inl (by decide))) (by decide)

/-! ## The signed-URL download request -/

/-- The request `qiniu.download` sends, when it sends one: a `GET` of the signed
URL with the `Date` header and, behind it, the `Range` header for a positive
offset or limit. -/
theorem qiniu_download_request {W : Type} (c : Collab W) (q : qiniu) (key : String)
    (off limit : Int) (w : W) (req : Request)
    (h : Event.httpDo req ∈ (q.download c key off limit w).trace) :
    req.Header = ("Date", c.Now w) ::
      (if off > 0 ∨ limit > 0 then
        [("Range", if limit > 0 then
            "bytes=" ++ fmtD off ++ "-" ++ fmtD (wrap64 (off + limit - 1))
          else "bytes=" ++ fmtD off ++ "-")]
      else []) := by
  unfold qiniu.download at h
  dsimp only at h
  rw [wrap64_sub_one] at h
  by_cases hd : c.Getenv "QINIU_DOMAIN" w = ""
  · simp [hd] at h
  · simp only [hd, if_false] at h
    split at h
    · simp at h
    · by_cases h2 : limit > 0
      · simp only [h2, or_true, if_true] at h
        split at h
        · simp at h; simp [h, h2]
        · split at h <;> (simp at h; simp [h, h2])
      · by_cases ho : off > 0
        · simp only [h2, ho, or_false, if_true, if_false] at h
          split at h
          · simp at h; simp [h, h2, ho]
          · split at h <;> (simp at h; simp [h, h2, ho])
        · simp only [h2, ho, or_false, if_false] at h
          split at h
          · simp at h; simp [h, h2, ho]
          · split at h <;> (simp at h; simp [h, h2, ho])

/-- C6, as the code has it: a request sent by `qiniu.download` carries a
`Range` header exactly when the offset or the limit is positive (not merely
non-zero); its value is `bytes=<off>-<off+limit-1>` when the limit is positive,
the end being computed in `int64` arithmetic, hence equal to `off+limit-1`
whenever that is an `int64`, and `bytes=<off>-` otherwise. -/
theorem qiniu_download_range {W : Type} (c : Collab W) (q : qiniu) (key : String)
    (off limit : Int) (w : W) (req : Request)
    (h : Event.httpDo req ∈ (q.download c key off limit w).trace) :
    ((∃ v, ("Range", v) ∈ req.Header) ↔ (off > 0 ∨ limit > 0)) ∧
    (limit > 0 → ∀ v, ("Range", v) ∈ req.Header ↔
      v = "bytes=" ++ fmtD off ++ "-" ++ fmtD (wrap64 (off + limit - 1))) ∧
    (limit > 0 → inInt64 (off + limit - 1) → ∀ v, ("Range", v) ∈ req.Header ↔
      v = "bytes=" ++ fmtD off ++ "-" ++ fmtD (off + limit - 1)) ∧
    (¬ limit > 0 → off > 0 → ∀ v, ("Range", v) ∈ req.Header ↔
      v = "bytes=" ++ fmtD off ++ "-") := by
  have hreq := qiniu_download_request c q key off limit w req h
  have hne : ("Range" = "Date") = False := by decide
  refine ⟨?_, ?_, ?_, ?_⟩
  · rw [hreq]
    by_cases h1 : off > 0 ∨ limit > 0
    · simp [h1, hne]
    · simp [h1, hne]
  · intro hl v
    rw [hreq]
    simp [hl, hne]
  · intro hl hr v
    rw [hreq, wrap64_of_inInt64 _ hr]
    simp [hl, hne]
  · intro hl ho v
    rw [hreq]
    simp [hl, ho, hne]

/-- The request for offset `7` and limit `3` on the sample adapter. -/
theorem qiniu_download_range_witness :
    Event.httpDo ⟨"GET", "http://cdn.example.com//a?e=1&token=t",
        [("Date", "Mon, 02 Jan 2006 15:04:05 GMT"), ("Range", "bytes=7-9")]⟩ ∈
      ((sampleQ "").download (sampleCollab ⟨[], [], "", none⟩) "/a" 7 3 0).trace ∧
    (("Range", "bytes=7-9") ∈
        [("Date", "Mon, 02 Jan 2006 15:04:05 GMT"), ("Range", "bytes=7-9")] ↔
      "bytes=7-9" = "bytes=" ++ fmtD 7 ++ "-" ++ fmtD (7 + 3 - 1)) :=
  ⟨by decide,
    (qiniu_download_range (sampleCollab ⟨[], [], "", none⟩) (sampleQ "") "/a" 7 3 0
      ⟨"GET", "http://cdn.example.com//a?e=1&token=t",
        [("Date", "Mon, 02 Jan 2006 15:04:05 GMT"), ("Range", "bytes=7-9")]⟩
      (by decide)).2.2.1 (by decide) (by decide) "bytes=7-9"⟩

/-- C6 fails as stated: with offset `0` and limit `-1` (read to the end) the
limit is not zero, yet the request that is sent carries the `Date` header
alone. -/
theorem qiniu_download_range_counterexample :
    ((0 : Int) ≠ 0 ∨ (-1 : Int) ≠ 0) ∧
    ((sampleQ "").download (sampleCollab ⟨[], [], "", none⟩) "/a" 0 (-1) 0).trace =
      [Event.httpDo ⟨"GET", "http://cdn.example.com//a?e=1&token=t",
        [("Date", "Mon, 02 Jan 2006 15:04:05 GMT")]⟩] := by
  decide

/-! ## Endpoint resolution -/

theorem indexOfSub_absent (c : Char) (s : List Char) (h : c ∉ s) : indexOfSub s [c] = -1 := by
  induction s with
  | nil => simp [indexOfSub]
  | cons a t ih =>
    have hne : c ≠ a := fun e => h (e ▸ List.mem_cons_self _ _)
    have ht : c ∉ t := fun e => h (List.mem_cons_of_mem _ e)
    unfold indexOfSub
    simp [hne, ih ht]

theorem indexOfSub_first (c : Char) (s rest : List Char) (h : c ∉ s) :
    indexOfSub (s ++ c :: rest) [c] = s.length := by
  induction s with
  | nil => unfold indexOfSub; simp
  | cons a t ih =>
    have hne : c ≠ a := fun e => h (e ▸ List.mem_cons_self _ _)
    have ht : c ∉ t := fun e => h (List.mem_cons_of_mem _ e)
    have hnn : ¬ ((t.length : Int) < 0) := by omega
    rw [List.cons_append]
    unfold indexOfSub
    simp [hne, ih ht, hnn]

theorem lastIndexOfSub_absent (c : Char) (s : List Char) (h : c ∉ s) :
    lastIndexOfSub s [c] = -1 := by
  induction s with
  | nil => simp [lastIndexOfSub]
  | cons a t ih =>
    have hne : c ≠ a := fun e => h (e ▸ List.mem_cons_self _ _)
    have ht : c ∉ t := fun e => h (List.mem_cons_of_mem _ e)
    unfold lastIndexOfSub
    simp [hne, ih ht]

theorem lastIndexOfSub_last (c : Char) (s rest : List Char) (h : c ∉ rest) :
    lastIndexOfSub (s ++ c :: rest) [c] = s.length := by
  induction s with
  | nil =>
    rw [List.nil_append]
    unfold lastIndexOfSub
    simp [lastIndexOfSub_absent c rest h]
  | cons a t ih =>
    have hnn : (t.length : Int) ≥ 0 := by omega
    rw [List.cons_append]
    unfold lastIndexOfSub
    simp [ih, hnn]

theorem SplitN_two_of_dot (bucket rest : String) (hb : '.' ∉ bucket.data) :
    SplitN (bucket ++ "." ++ rest) "." 2 = [bucket, rest] := by
  have hd : (bucket ++ "." ++ rest).data = bucket.data ++ '.' :: rest.data := by
    simp [String.data_append]
  have hsep : (".").data = ['.'] := rfl
  have hnn : ¬ ((bucket.length : Int) < 0) := by omega
  have hdrop : List.drop (bucket.length + 1) (bucket.data ++ '.' :: rest.data) =
      rest.data := by
    have hl : bucket.length = bucket.data.length := rfl
    rw [hl, List.drop_append_eq_append_drop]
    simp
  unfold SplitN
  simp only [hd, hsep, show (2 : Nat) - 1 = 0 + 1 from rfl, splitLoop,
    indexOfSub_first '.' bucket.data rest.data hb]
  simp [hnn, hdrop]

theorem SplitN_two_of_no_dot (host : String) (hb : '.' ∉ host.data) :
    SplitN host "." 2 = [host] := by
  have hsep : (".").data = ['.'] := rfl
  unfold SplitN
  simp [hsep, show (2 : Nat) - 1 = 0 + 1 from rfl, splitLoop, indexOfSub_absent '.' host.data hb]

theorem sliceTo_region (region suffix : String) (hs : '-' ∉ suffix.data) :
    sliceTo (region ++ "-" ++ suffix) (LastIndex (region ++ "-" ++ suffix) "-") = some region := by
  have hd : (region ++ "-" ++ suffix).data = region.data ++ '-' :: suffix.data := by
    simp [String.data_append]
  have hsep : ("-").data = ['-'] := rfl
  have hle : (0 : Int) ≤ region.data.length ∧
      (region.data.length : Int) ≤ (region.data ++ '-' :: suffix.data).length := by
    simp only [List.length_append, List.length_cons]
    omega
  unfold sliceTo LastIndex
  rw [hd, hsep, lastIndexOfSub_last '-' region.data suffix.data hs, if_pos hle]
  simp

/-- C9: when the parsed host is `<bucket>.<region>-<suffix>` with no `.` in
the bucket and no `-` in the suffix, `newQiniu` returns an adapter with that
bucket (in the baseline client and in the kodo handle), that region, the
endpoint `<region>-<suffix>`, and the zone of the region in the table
(`cn-east-1` 0, `cn-north-1` 1, `cn-south-1` 2, `us-west-1` 3), which is `0`
for every region absent from it. -/
theorem newQiniu_resolves (P : String → Except GoError URL) (endpoint ak sk : String)
    (uri : URL) (bucket region suffix : String)
    (hp : P endpoint = Except.ok uri)
    (hh : uri.Host = bucket ++ "." ++ (region ++ "-" ++ suffix))
    (hb : '.' ∉ bucket.data) (hs : '-' ∉ suffix.data) :
    ∃ q, newQiniu P endpoint ak sk = Outcome.ok q ∧
      q.s3.bucket = bucket ∧ q.b.Name = bucket ∧
      q.s3.Region = region ∧ q.s3.Endpoint = region ++ "-" ++ suffix ∧
      (region = "cn-east-1" → q.b.zone = 0) ∧
      (region = "cn-north-1" → q.b.zone = 1) ∧
      (region = "cn-south-1" → q.b.zone = 2) ∧
      (region = "us-west-1" → q.b.zone = 3) ∧
      (region ∉ ["cn-east-1", "cn-north-1", "cn-south-1", "us-west-1"] → q.b.zone = 0) := by
  refine ⟨⟨⟨bucket, region ++ "-" ++ suffix, region, false, true⟩,
    ⟨mapIndex regions region, bucket⟩, ""⟩, ?_, rfl, rfl, rfl, rfl, ?_, ?_, ?_, ?_, ?_⟩
  · unfold newQiniu
    simp only [hp, hh, SplitN_two_of_dot bucket _ hb]
    simp [sliceTo_region region suffix hs]
  · intro h; subst h; rfl
  · intro h; subst h; rfl
  · intro h; subst h; rfl
  · intro h; subst h; rfl
  · intro h
    simp only [List.mem_cons, List.mem_singleton, List.not_mem_nil, or_false, not_or] at h
    obtain ⟨h1, h2, h3, h4⟩ := h
    have e1 : (region == "cn-east-1") = false := by simpa using h1
    have e2 : (region == "cn-north-1") = false := by simpa using h2
    have e3 : (region == "cn-south-1") = false := by simpa using h3
    have e4 : (region == "us-west-1") = false := by simpa using h4
    show mapIndex regions region = 0
    simp only [mapIndex, regions, List.lookup, e1, e2, e3, e4]
    rfl

/-- The endpoint `https://my-bkt.us-west-1-s3.qiniucs.com:443/`. -/
theorem newQiniu_resolves_witness :
    ∃ q, newQiniu parseSimple "https://my-bkt.us-west-1-s3.qiniucs.com:443/" "ak" "sk" =
        Outcome.ok q ∧
      q.s3.bucket = "my-bkt" ∧ q.b.Name = "my-bkt" ∧
      q.s3.Region = "us-west-1" ∧ q.s3.Endpoint = "us-west-1" ++ "-" ++ "s3.qiniucs.com:443" ∧
      ("us-west-1" = "cn-east-1" → q.b.zone = 0) ∧
      ("us-west-1" = "cn-north-1" → q.b.zone = 1) ∧
      ("us-west-1" = "cn-south-1" → q.b.zone = 2) ∧
      ("us-west-1" = "us-west-1" → q.b.zone = 3) ∧
      ("us-west-1" ∉ ["cn-east-1", "cn-north-1", "cn-south-1", "us-west-1"] → q.b.zone = 0) :=
  newQiniu_resolves parseSimple "https://my-bkt.us-west-1-s3.qiniucs.com:443/" "ak" "sk"
    ⟨"https", "my-bkt.us-west-1-s3.qiniucs.com:443", "/"⟩ "my-bkt" "us-west-1"
    "s3.qiniucs.com:443" (by rfl) (by rfl) (by decide) (by decide)

/-- C10 does not hold of the code: whenever the parse succeeds with a host that
has no `.`, `strings.SplitN` yields one piece and `hostParts[1]` panics, so
`newQiniu` returns no adapter. -/
theorem newQiniu_panics_without_dot (P : String → Except GoError URL)
    (endpoint ak sk : String) (uri : URL)
    (hp : P endpoint = Except.ok uri) (hh : '.' ∉ uri.Host.data) :
    newQiniu P endpoint ak sk = Outcome.panic "index out of range" := by
  unfold newQiniu
  simp [hp, SplitN_two_of_no_dot uri.Host hh]

/-- The endpoint `http://localhost:9000`. -/
theorem newQiniu_panics_without_dot_witness :
    newQiniu parseSimple "http://localhost:9000" "ak" "sk" =
      Outcome.panic "index out of range" :=
  newQiniu_panics_without_dot parseSimple "http://localhost:9000" "ak" "sk"
    ⟨"http", "localhost:9000", ""⟩ (by rfl) (by decide)

/-- The endpoint `http://bkt.example.com`: the host has a `.`, what follows it
has no `-`, `strings.LastIndex` returns `-1` and the slice `endpoint[:-1]`
panics. -/
theorem newQiniu_panics_without_dash :
    newQiniu parseSimple "http://bkt.example.com" "ak" "sk" =
      Outcome.panic "slice bounds out of range" := by
  decide

/-! ## Termination of the traversal -/

theorem ceil_pos (N p L : Nat) (hL : 0 < L) (hp : p < N) : 1 ≤ (N - p + L - 1) / L := by
  apply Nat.div_pos _ hL
  omega

theorem ceil_step (N p L : Nat) (hL : 0 < L) (hp : p < N) :
    (N - (p + min L (N - p)) + L - 1) / L + 1 ≤ (N - p + L - 1) / L := by
  rcases Nat.lt_or_ge (N - p) L with h | h
  · have hm : min L (N - p) = N - p := by omega
    have h0 : N - (p + (N - p)) + L - 1 = L - 1 := by omega
    rw [hm, h0, Nat.div_eq_of_lt (by omega)]
    exact ceil_pos N p L hL hp
  · have hm : min L (N - p) = L := by omega
    have h0 : N - p + L - 1 = (N - (p + L) + L - 1) + L := by omega
    rw [hm, h0, Nat.add_div_right _ hL]

theorem qiniu_List_reach_facts {W : Type} (c : Collab W) (q : qiniu) (pfx marker : String)
    (limit : Int) (w : W) (hreach : marker = "" ∨ q.marker ≠ "") :
    (q.List c pfx marker limit w).ret.1.length =
        (c.bList pfx "" (if marker = "" then "" else q.marker) (toInt limit) w).1.entries.length ∧
    (q.List c pfx marker limit w).q.marker =
        (c.bList pfx "" (if marker = "" then "" else q.marker) (toInt limit) w).1.markerOut ∧
    ((c.bList pfx "" (if marker = "" then "" else q.marker) (toInt limit) w).1.entries ≠ [] →
      (q.List c pfx marker limit w).ret.1 =
        listObjs (c.bList pfx "" (if marker = "" then "" else q.marker)
          (toInt limit) w).1.entries) := by
  rw [qiniu_List_reach c q pfx marker limit w hreach]
  dsimp only
  generalize (if marker = "" then "" else q.marker) = m
  rcases c.bList pfx "" m (toInt limit) w with ⟨⟨entries, cp, mo, err⟩, w1⟩
  dsimp only
  by_cases h : entries ≠ [] ∨ err = some GoError.EOF ∨ err = none
  · rw [if_pos h]
    simp [listObjs_length]
  · rw [if_neg h]
    simp only [not_or, ne_eq, not_not] at h
    simp [h.1]

theorem traversal_from {W : Type} (c : Collab W) (next : List (Option Object) → String)
    (pfx : String) (limit : Int) (keys : List ListItem) (pos : String → Nat)
    (hpos : 0 < limit) (h64 : inInt64 limit)
    (hserve : ServesBucket c pfx limit keys pos)
    (hnext : ∀ p, p < keys.length → next (listObjs ((keys.drop p).take limit.toNat)) ≠ "") :
    ∀ (fuel : Nat) (marker : String) (q : qiniu) (w : W),
      (if marker = "" ∨ q.marker ≠ "" then
        (keys.length - pos (if marker = "" then "" else q.marker) + limit.toNat - 1) /
          limit.toNat + 1
       else 1) ≤ fuel →
      ∃ calls, traversal c next pfx limit fuel marker q w = some calls ∧
        calls.length ≤ (if marker = "" ∨ q.marker ≠ "" then
          (keys.length - pos (if marker = "" then "" else q.marker) + limit.toNat - 1) /
            limit.toNat + 1
          else 1) ∧
        1 ≤ calls.length ∧
        (∀ r, calls.getLast? = some r → r.1 = []) ∧
        (∀ r ∈ calls.dropLast, r.1 ≠ []) := by
  have hL : 0 < limit.toNat := by omega
  have hti : toInt limit = limit := wrap64_of_inInt64 limit h64
  intro fuel
  induction fuel with
  | zero =>
    intro marker q w hf
    split at hf
    · exact absurd hf (Nat.not_succ_le_zero _)
    · omega
  | succ fuel ih =>
    intro marker q w hf
    by_cases hreach : marker = "" ∨ q.marker ≠ ""
    · rw [if_pos hreach] at hf ⊢
      obtain ⟨hlen, hmk, hobjs⟩ := qiniu_List_reach_facts c q pfx marker limit w hreach
      rw [hti] at hlen hmk hobjs
      generalize hm : (if marker = "" then "" else q.marker) = m at hf hlen hmk hobjs ⊢
      have hpage := hserve.page m w
      have hadv := hserve.advance m w
      have hplen : (c.bList pfx "" m limit w).1.entries.length =
          min limit.toNat (keys.length - pos m) := by
        rw [hpage, List.length_take, List.length_drop]
      by_cases he : (c.bList pfx "" m limit w).1.entries.length = 0
      · refine ⟨[(q.List c pfx marker limit w).ret], ?_, ?_, ?_, ?_, ?_⟩
        · simp only [traversal]
          rw [if_pos (by rw [hlen]; exact he)]
        · simp
        · simp
        · intro r hr
          simp only [List.getLast?_singleton, Option.some.injEq] at hr
          rw [← hr]
          exact List.length_eq_zero.mp (by rw [hlen]; exact he)
        · simp
      · have hne : (c.bList pfx "" m limit w).1.entries ≠ [] := fun h => he (by rw [h]; rfl)
        have hp : pos m < keys.length := by omega
        have hobj := hobjs hne
        have hnm : next (q.List c pfx marker limit w).ret.1 ≠ "" := by
          rw [hobj, hpage]; exact hnext (pos m) hp
        have hc1 := ceil_pos keys.length (pos m) limit.toNat hL hp
        have hc2 := ceil_step keys.length (pos m) limit.toNat hL hp
        have hih := ih (next (q.List c pfx marker limit w).ret.1) (q.List c pfx marker limit w).q
          (q.List c pfx marker limit w).world (by
            simp only [hnm, false_or, if_false]
            rw [hmk]
            by_cases hmo : (c.bList pfx "" m limit w).1.markerOut = ""
            · simp only [hmo, ne_eq, not_true_eq_false, if_false]; omega
            · simp only [hmo, ne_eq, not_false_eq_true, if_true]
              rw [hadv hmo, hplen]; omega)
        obtain ⟨calls, hcalls, hcl, hc1le, hlast, hinit⟩ := hih
        refine ⟨(q.List c pfx marker limit w).ret :: calls, ?_, ?_, ?_, ?_, ?_⟩
        · simp only [traversal]
          rw [if_neg (by rw [hlen]; exact he), hcalls]
          rfl
        · simp only [hnm, false_or, if_false] at hcl
          rw [hmk] at hcl
          by_cases hmo : (c.bList pfx "" m limit w).1.markerOut = ""
          · simp only [hmo, ne_eq, not_true_eq_false, if_false] at hcl
            simp only [List.length_cons]; omega
          · simp only [hmo, ne_eq, not_false_eq_true, if_true] at hcl
            rw [hadv hmo, hplen] at hcl
            simp only [List.length_cons]; omega
        · simp
        · intro r hr
          cases calls with
          | nil => simp at hc1le
          | cons x xs =>
            rw [List.getLast?_cons_cons] at hr
            exact hlast r hr
        · intro r hr
          have hcne : calls ≠ [] := fun h => by rw [h] at hc1le; simp at hc1le
          rw [List.dropLast_cons_of_ne_nil hcne, List.mem_cons] at hr
          rcases hr with hr | hr
          · rw [hr]
            intro h0
            apply he
            rw [← hlen, h0]; rfl
          · exact hinit r hr
    · rw [if_neg hreach] at hf ⊢
      simp only [not_or, ne_eq, not_not] at hreach
      have h1 : (q.List c pfx marker limit w).ret = ([], none) := by
        simp [qiniu.List, hreach.1, hreach.2]
      refine ⟨[(q.List c pfx marker limit w).ret], ?_, ?_, ?_, ?_, ?_⟩
      · simp only [traversal]
        rw [if_pos (by rw [h1]; rfl)]
      · simp
      · simp
      · intro r hr
        simp only [List.getLast?_singleton, Option.some.injEq] at hr
        rw [← hr, h1]
      · simp

theorem pagedCollab_serves (keys : List ListItem) (pfx : String) (limit : Int) :
    ServesBucket (pagedCollab keys) pfx limit keys (fun m => m.data.length) where
  start := rfl
  page := by
    intro m w
    show (pagedList keys pfx "" m limit w).1.entries = _
    unfold pagedList
    dsimp only
    split <;> rfl
  advance := by
    intro m w
    show (pagedList keys pfx "" m limit w).1.markerOut ≠ "" →
      (pagedList keys pfx "" m limit w).1.markerOut.data.length =
        m.data.length + (pagedList keys pfx "" m limit w).1.entries.length
    unfold pagedList
    dsimp only
    split
    · intro _
      simp
    · intro h
      exact absurd rfl h

/-- C5, as the code has it: let the provider serve the `keys.length` entries
under `pfx` in full pages of a positive `limit` (`ServesBucket`), and let the
caller's marker after every page that is not empty be a string that is not
empty.  Then the traversal that starts with `List(pfx, "", limit)` and repeats
`List` with the marker of the previous page ends within
`⌈keys.length / limit⌉ + 1` calls, for every fuel of at least that many calls
and from every adapter state; its last call returns zero entries and every
earlier call returns some. -/
theorem traversal_terminates {W : Type} (c : Collab W) (next : List (Option Object) → String)
    (pfx : String) (limit : Int) (keys : List ListItem) (pos : String → Nat)
    (q : qiniu) (w : W) (fuel : Nat)
    (hpos : 0 < limit) (h64 : inInt64 limit)
    (hserve : ServesBucket c pfx limit keys pos)
    (hnext : ∀ p, p < keys.length → next (listObjs ((keys.drop p).take limit.toNat)) ≠ "")
    (hfuel : (keys.length + limit.toNat - 1) / limit.toNat + 1 ≤ fuel) :
    ∃ calls, traversal c next pfx limit fuel "" q w = some calls ∧
      1 ≤ calls.length ∧
      calls.length ≤ (keys.length + limit.toNat - 1) / limit.toNat + 1 ∧
      (∃ r, calls.getLast? = some r ∧ r.1 = []) ∧
      (∀ r ∈ calls.dropLast, r.1 ≠ []) := by
  have h := traversal_from c next pfx limit keys pos hpos h64 hserve hnext fuel "" q w
  simp only [true_or, if_true, hserve.start, Nat.sub_zero] at h
  obtain ⟨calls, hc, hle, h1, hlast, hinit⟩ := h hfuel
  refine ⟨calls, hc, h1, hle, ?_, hinit⟩
  cases hg : calls.getLast? with
  | none =>
    rw [List.getLast?_eq_none_iff] at hg
    rw [hg] at h1
    simp at h1
  | some r => exact ⟨r, rfl, hlast r hg⟩

/-- Three entries listed in pages of two, from an adapter with a stale cursor. -/
theorem traversal_terminates_witness :
    ∃ calls, traversal (pagedCollab [sampleItem "a" 0, sampleItem "b" 0, sampleItem "c" 0])
        lastKey "" 2 3 "" (sampleQ "stale") 0 = some calls ∧
      1 ≤ calls.length ∧
      calls.length ≤
        ([sampleItem "a" 0, sampleItem "b" 0, sampleItem "c" 0].length + (2 : Int).toNat - 1) /
          (2 : Int).toNat + 1 ∧
      (∃ r, calls.getLast? = some r ∧ r.1 = []) ∧
      (∀ r ∈ calls.dropLast, r.1 ≠ []) :=
  traversal_terminates (pagedCollab [sampleItem "a" 0, sampleItem "b" 0, sampleItem "c" 0])
    lastKey "" 2 [sampleItem "a" 0, sampleItem "b" 0, sampleItem "c" 0]
    (fun m => m.data.length) (sampleQ "stale") 0 3 (by decide) (by decide)
    (pagedCollab_serves _ _ _) (by decide) (by decide)

/-- C5 fails as stated, for every bucket and every provider.  A bucket whose
one key is the empty string, listed in pages of one by a caller that takes the
last key for its marker, restarts at every call: the bound is `2` and `50`
calls do not reach the end.  And three keys served one entry per call at limit
`2` take four calls, one more than the bound `3`. -/
theorem traversal_terminates_counterexample :
    ([sampleItem "" 0].length + (1 : Int).toNat - 1) / (1 : Int).toNat + 1 = 2 ∧
    traversal (pagedCollab [sampleItem "" 0]) lastKey "" 1 50 "" (sampleQ "") 0 = none ∧
    ([sampleItem "a" 0, sampleItem "b" 0, sampleItem "c" 0].length + (2 : Int).toNat - 1) /
      (2 : Int).toNat + 1 = 3 ∧
    traversal (thinCollab [sampleItem "a" 0, sampleItem "b" 0, sampleItem "c" 0]) lastKey
      "" 2 3 "" (sampleQ "") 0 = none ∧
    traversal (thinCollab [sampleItem "a" 0, sampleItem "b" 0, sampleItem "c" 0]) lastKey
      "" 2 4 "" (sampleQ "") 0 =
      some [([some ⟨"a", 3, 0, 0⟩], none), ([some ⟨"b", 3, 0, 0⟩], none),
        ([some ⟨"c", 3, 0, 0⟩], none), ([], none)] :=
  ⟨by decide, by decide, by decide, by decide, by decide⟩

